import Mathlib

set_option autoImplicit false
set_option maxRecDepth 40000

/-!
Shallow embedding of `scripts/add_license_header.py` and proofs of the
specification's testable properties.

File content is modelled as `List Char` (the decoded text of the file).
Python opens files in text mode with `newline=None` (universal newlines):
on reading, the terminators `"\r\n"` and `"\r"` are translated to `"\n"`;
on writing, `"\n"` is translated to `os.linesep`, which on a POSIX platform
is `"\n"` (the write is modelled as the identity translation, i.e. the
POSIX behaviour of the script).
-/

namespace AddLicense

/-- `LICENSE_MAP` from the source: extension → line-comment marker,
as an association list (insertion order of the Python dict literal). -/
def LICENSE_MAP : List (List Char × List Char) :=
  [(".sh".data, "#".data),
   (".rs".data, "//".data),
   (".py".data, "#".data),
   (".go".data, "//".data),
   (".js".data, "//".data),
   (".jsx".data, "//".data),
   (".ts".data, "//".data),
   (".tsx".data, "//".data)]

/-- `LICENSE_LINES` from the source: the 13 lines of the Apache-2.0
short-form notice body. -/
def LICENSE_LINES : List (List Char) :=
  ["Copyright 2025 chenjjiaa".data,
   "".data,
   "Licensed under the Apache License, Version 2.0 (the \"License\");".data,
   "you may not use this file except in compliance with the License.".data,
   "You may obtain a copy of the License at".data,
   "".data,
   "    http://www.apache.org/licenses/LICENSE-2.0".data,
   "".data,
   "Unless required by applicable law or agreed to in writing, software".data,
   "distributed under the License is distributed on an \"AS IS\" BASIS,".data,
   "WITHOUT WARRANTIES OR CONDITIONS OF ANY KIND, either express or implied.".data,
   "See the License for the specific language governing permissions and".data,
   "limitations under the License.".data]

/-- First-match lookup in an association list (Python `dict.get` on a
literal dict: keys are distinct, so first match is the dict entry). -/
def lookupA : List (List Char × List Char) → List Char → Option (List Char)
  | [], _ => none
  | (k, v) :: rest, x => if k = x then some v else lookupA rest x

/-- `LICENSE_MAP.get(ext)` from source line 33. -/
def getMarker (ext : List Char) : Option (List Char) :=
  lookupA LICENSE_MAP ext

/-- Split a path at `/` separators (components, possibly empty). -/
def splitSlash : List Char → List (List Char)
  | [] => [[]]
  | c :: rest =>
    if c = '/' then [] :: splitSlash rest
    else
      match splitSlash rest with
      | [] => [[c]]
      | l :: ls => (c :: l) :: ls

/-- `pathlib.Path(p).name`: the last path component; empty components and
bare `.` components are dropped by pathlib's parser (`..` is kept). -/
def pathName (p : List Char) : List Char :=
  (((splitSlash p).filter (fun comp => comp ≠ [] && comp ≠ ['.'])).getLast?).getD []

/-- Index of the last `'.'` in a name (Python `str.rfind('.')`),
as an accumulator scan. -/
def rfindDotAux : List Char → Nat → Option Nat → Option Nat
  | [], _, acc => acc
  | c :: rest, i, acc => rfindDotAux rest (i + 1) (if c = '.' then some i else acc)

/-- Python `name.rfind('.')` (as an `Option`: `none` when absent). -/
def rfindDot (name : List Char) : Option Nat :=
  rfindDotAux name 0 none

/-- `pathlib` suffix of a file name: `name[i:]` where `i = name.rfind('.')`,
provided `0 < i < len(name) - 1`; otherwise empty. -/
def suffix (name : List Char) : List Char :=
  match rfindDot name with
  | none => []
  | some i => if 0 < i ∧ i + 1 < name.length then name.drop i else []

/-- `pathlib.Path(file_path).suffix` from source line 32. -/
def pathExt (file_path : List Char) : List Char :=
  suffix (pathName file_path)

/-- Universal-newline translation performed by Python's text-mode read:
`"\r\n"` and `"\r"` become `"\n"`. -/
def normalizeNewlines : List Char → List Char
  | [] => []
  | [c] => if c = '\r' then ['\n'] else [c]
  | c :: d :: rest =>
    if c = '\r' then
      if d = '\n' then '\n' :: normalizeNewlines rest
      else '\n' :: normalizeNewlines (d :: rest)
    else c :: normalizeNewlines (d :: rest)

/-- Split translated text into lines, keeping the `'\n'` terminators
(the behaviour of `readlines` on an already-translated stream). -/
def splitLines : List Char → List (List Char)
  | [] => []
  | c :: rest =>
    if c = '\n' then ['\n'] :: splitLines rest
    else
      match splitLines rest with
      | [] => [[c]]
      | l :: ls => (c :: l) :: ls

/-- `f.readlines()` from source line 37: universal-newline translation,
then split into terminator-keeping lines. -/
def readlines (content : List Char) : List (List Char) :=
  splitLines (normalizeNewlines content)

/-- `p` occurs at the start of `s`. -/
def isPref : List Char → List Char → Bool
  | [], _ => true
  | _ :: _, [] => false
  | p :: ps, c :: cs => (p = c : Bool) && isPref ps cs

/-- Python substring test `pat in s`. -/
def containsSub (s pat : List Char) : Bool :=
  if isPref pat s then true
  else
    match s with
    | [] => false
    | _ :: rest => containsSub rest pat

/-- The marker substring searched for by the idempotence check. -/
def licenseSub : List Char :=
  "Licensed under the Apache License".data

/-- Source line 40: `any("Licensed under the Apache License" in line
for line in lines[:15])`. -/
def alreadyLicensedB (content : List Char) : Bool :=
  ((readlines content).take 15).any (fun l => containsSub l licenseSub)

/-- Characters removed by Python `str.rstrip()` (the ASCII whitespace
set; all text handled by the script is ASCII). -/
def isSpaceChar (c : Char) : Bool :=
  c = ' ' || c = '\t' || c = '\n' || c = '\r' || c = '\x0b' || c = '\x0c'

/-- Python `str.rstrip()`: remove trailing whitespace characters. -/
def rstrip (l : List Char) : List Char :=
  (l.reverse.dropWhile isSpaceChar).reverse

/-- One rendered header line, source line 43:
`f"{comment} {line}".rstrip() + '\n' if line else f"{comment}\n"`
(the conditional tests truthiness of `line`, i.e. non-emptiness). -/
def renderLine (comment line : List Char) : List Char :=
  if line = [] then comment ++ ['\n']
  else rstrip (comment ++ ' ' :: line) ++ ['\n']

/-- `commented_header` from source line 43. -/
def commented_header (comment : List Char) : List (List Char) :=
  LICENSE_LINES.map (renderLine comment)

/-- The content transformation `add_header` applies to a file whose
pathlib suffix is `ext`: returns the (possibly unchanged) resulting file
content. Mirrors source lines 33-45; `if comment = []` is Python's
falsiness test `if not comment` (which also treats `""` as absent). -/
def injectExt (ext content : List Char) : List Char :=
  match getMarker ext with
  | none => content
  | some comment =>
    if comment = [] then content
    else if alreadyLicensedB content then content
    else ((commented_header comment) ++ [['\n']] ++ readlines content).flatten

/-- The file system: an association list from path to file content.
`lookupFS fs p = none` models `open(p, 'r')` raising `FileNotFoundError`. -/
abbrev FS := List (List Char × List Char)

/-- Read a file: `open(file_path, 'r')` + `read`. -/
def lookupFS : FS → List Char → Option (List Char)
  | [], _ => none
  | (k, v) :: rest, p => if k = p then some v else lookupFS rest p

/-- Overwrite an existing file in place (`open(file_path, 'w')` +
`writelines`). -/
def fsWrite (fs : FS) (p v : List Char) : FS :=
  fs.map (fun kv => if kv.1 = p then (p, v) else kv)

/-- `add_header(file_path)` from source lines 31-45, as a state
transformer on the file system; `Except.error ()` is an uncaught I/O
exception (file absent at `open`). -/
def add_header (fs : FS) (file_path : List Char) : Except Unit FS :=
  match getMarker (pathExt file_path) with
  | none => Except.ok fs
  | some comment =>
    if comment = [] then Except.ok fs
    else
      match lookupFS fs file_path with
      | none => Except.error ()
      | some content =>
        if alreadyLicensedB content then Except.ok fs
        else
          Except.ok (fsWrite fs file_path
            (((commented_header comment) ++ [['\n']] ++ readlines content).flatten))

/-- The `__main__` loop, source lines 47-49: apply `add_header` to each
argument in order; an uncaught exception terminates the process with a
non-zero status (`false`), leaving the remaining arguments unprocessed
(returned in the third component). -/
def mainLoop : FS → List (List Char) → FS × Bool × List (List Char)
  | fs, [] => (fs, true, [])
  | fs, file :: rest =>
    match add_header fs file with
    | Except.error _ => (fs, false, rest)
    | Except.ok fs2 => mainLoop fs2 rest

/-- An argument on which `add_header` raises: supported extension but no
such file. -/
def failsB (fs : FS) (p : List Char) : Bool :=
  (getMarker (pathExt p)).isSome && (lookupFS fs p).isNone

/-- Modelled from the spec: Step 1's words define the extension as "the
substring after the final `.` in the filename, including the dot"
(unconditionally, with no exception for a leading or trailing dot).
Used only to compare the spec's extraction rule with the code's. -/
def specExt (name : List Char) : List Char :=
  match rfindDot name with
  | none => []
  | some i => name.drop i

/-! ### Lemmas about the newline translation and line splitting -/

theorem normalize_cons_ne {c : Char} (h : c ≠ '\r') (rest : List Char) :
    normalizeNewlines (c :: rest) = c :: normalizeNewlines rest := by
  cases rest with
  | nil => simp [normalizeNewlines, h]
  | cons d r => simp [normalizeNewlines, h]

theorem normalize_no_cr : ∀ s : List Char, '\r' ∉ normalizeNewlines s
  | [] => by simp [normalizeNewlines]
  | [c] => by
    by_cases h : c = '\r'
    · subst h; decide
    · have he : normalizeNewlines [c] = [c] := by simp [normalizeNewlines, h]
      rw [he]
      simp only [List.mem_singleton]
      exact Ne.symm h
  | c :: d :: rest => by
    by_cases h : c = '\r'
    · subst h
      by_cases hd : d = '\n'
      · subst hd
        rw [show normalizeNewlines ('\r' :: '\n' :: rest) = '\n' :: normalizeNewlines rest from by
          simp [normalizeNewlines]]
        simp only [List.mem_cons, not_or]
        exact ⟨by decide, normalize_no_cr rest⟩
      · rw [show normalizeNewlines ('\r' :: d :: rest) = '\n' :: normalizeNewlines (d :: rest) from by
          simp [normalizeNewlines, hd]]
        simp only [List.mem_cons, not_or]
        exact ⟨by decide, normalize_no_cr (d :: rest)⟩
    · rw [normalize_cons_ne h]
      simp only [List.mem_cons, not_or]
      exact ⟨Ne.symm h, normalize_no_cr (d :: rest)⟩

theorem normalize_id {s : List Char} (h : '\r' ∉ s) : normalizeNewlines s = s := by
  induction s with
  | nil => rfl
  | cons c rest ih =>
    have hc : c ≠ '\r' := fun hc => h (hc ▸ List.mem_cons_self c rest)
    rw [normalize_cons_ne hc, ih (fun hm => h (List.mem_cons_of_mem c hm))]

theorem normalize_idem (s : List Char) :
    normalizeNewlines (normalizeNewlines s) = normalizeNewlines s :=
  normalize_id (normalize_no_cr s)

theorem normalize_append {a : List Char} (h : '\r' ∉ a) (b : List Char) :
    normalizeNewlines (a ++ b) = a ++ normalizeNewlines b := by
  induction a with
  | nil => rfl
  | cons c rest ih =>
    have hc : c ≠ '\r' := fun hc => h (hc ▸ List.mem_cons_self c rest)
    rw [List.cons_append, normalize_cons_ne hc,
      ih (fun hm => h (List.mem_cons_of_mem c hm))]
    simp

theorem flatten_splitLines : ∀ s : List Char, (splitLines s).flatten = s
  | [] => rfl
  | c :: rest => by
    by_cases h : c = '\n'
    · simpa [splitLines, h] using flatten_splitLines rest
    · have ih := flatten_splitLines rest
      cases hs : splitLines rest with
      | nil =>
        rw [hs] at ih
        simp at ih
        simp [splitLines, h, hs, ← ih]
      | cons l ls =>
        rw [hs] at ih
        simp only [splitLines, h, if_neg h, hs]
        simpa using ih

theorem splitLines_append_line {m : List Char} (hm : '\n' ∉ m) (s : List Char) :
    splitLines (m ++ '\n' :: s) = (m ++ ['\n']) :: splitLines s := by
  induction m with
  | nil => simp [splitLines]
  | cons x m' ih =>
    have hx : x ≠ '\n' := fun hx => hm (hx ▸ List.mem_cons_self x m')
    have ih' := ih (fun hmm => hm (List.mem_cons_of_mem x hmm))
    simp only [List.cons_append, splitLines, if_neg hx, List.append_eq, ih']

theorem splitLines_flatten_append :
    ∀ {ls : List (List Char)}, (∀ l ∈ ls, ∃ m, '\n' ∉ m ∧ l = m ++ ['\n']) →
      ∀ s : List Char, splitLines (ls.flatten ++ s) = ls ++ splitLines s := by
  intro ls
  induction ls with
  | nil => intro _ s; rfl
  | cons l ls ih =>
    intro h s
    obtain ⟨m, hmn, hml⟩ := h l (List.mem_cons_self l ls)
    have ih' := ih (fun l2 hl2 => h l2 (List.mem_cons_of_mem l hl2)) s
    subst hml
    rw [List.flatten_cons, List.append_assoc, List.append_assoc]
    simp only [List.singleton_append]
    rw [splitLines_append_line hmn, ih']
    simp

/-! ### Lemmas about the marker table and the rendered header -/

theorem getMarker_range {ext m : List Char} (h : getMarker ext = some m) :
    m = "#".data ∨ m = "//".data := by
  simp only [getMarker, LICENSE_MAP, lookupA] at h
  split_ifs at h <;> simp_all

theorem marker_ne_nil {ext m : List Char} (h : getMarker ext = some m) : m ≠ [] := by
  rcases getMarker_range h with rfl | rfl <;> decide

theorem marker_no_nl {ext m : List Char} (h : getMarker ext = some m) : '\n' ∉ m := by
  rcases getMarker_range h with rfl | rfl <;> decide

theorem LICENSE_LINES_no_nl : ∀ l ∈ LICENSE_LINES, '\n' ∉ l := by decide

theorem rstrip_subset {l : List Char} {c : Char} (h : c ∈ rstrip l) : c ∈ l := by
  simp only [rstrip, List.mem_reverse] at h
  exact List.mem_reverse.mp ((List.dropWhile_sublist isSpaceChar).mem h)

theorem renderLine_term {comment line : List Char} (hcn : '\n' ∉ comment)
    (hln : '\n' ∉ line) :
    ∃ m, '\n' ∉ m ∧ renderLine comment line = m ++ ['\n'] := by
  unfold renderLine
  by_cases hl : line = []
  · exact ⟨comment, hcn, by simp [hl]⟩
  · refine ⟨rstrip (comment ++ ' ' :: line), fun hm => ?_, by simp [hl]⟩
    rcases List.mem_append.mp (rstrip_subset hm) with h1 | h1
    · exact hcn h1
    · rcases List.mem_cons.mp h1 with h2 | h2
      · exact absurd h2 (by decide)
      · exact hln h2

theorem header_lines_term {comment : List Char} (hcn : '\n' ∉ comment) :
    ∀ l ∈ commented_header comment ++ [['\n']], ∃ m, '\n' ∉ m ∧ l = m ++ ['\n'] := by
  intro l hl
  rcases List.mem_append.mp hl with h1 | h1
  · obtain ⟨line, hline, rfl⟩ := List.mem_map.mp h1
    exact renderLine_term hcn (LICENSE_LINES_no_nl line hline)
  · rcases List.mem_singleton.mp h1 with rfl
    exact ⟨[], by decide, rfl⟩

theorem commented_header_length (comment : List Char) :
    (commented_header comment).length = 13 := by
  simp [commented_header, LICENSE_LINES]

theorem header_no_cr {ext m : List Char} (h : getMarker ext = some m) :
    '\r' ∉ (commented_header m).flatten := by
  rcases getMarker_range h with rfl | rfl <;> decide

/-! ### The two branches of `injectExt` under a supported marker -/

theorem inject_skip {ext m c : List Char} (hm : getMarker ext = some m)
    (hal : alreadyLicensedB c = true) : injectExt ext c = c := by
  simp [injectExt, hm, marker_ne_nil hm, hal]

theorem inject_write {ext m c : List Char} (hm : getMarker ext = some m)
    (hal : alreadyLicensedB c = false) :
    injectExt ext c = (commented_header m).flatten ++ '\n' :: normalizeNewlines c := by
  simp only [injectExt, hm, if_neg (marker_ne_nil hm), hal, Bool.false_eq_true,
    if_false]
  rw [List.flatten_append, List.flatten_append]
  simp [readlines, flatten_splitLines]

theorem readlines_inject {ext m c : List Char} (hm : getMarker ext = some m)
    (hal : alreadyLicensedB c = false) :
    readlines (injectExt ext c) = commented_header m ++ ['\n'] :: readlines c := by
  rw [inject_write hm hal]
  have h1 : normalizeNewlines ((commented_header m).flatten ++ '\n' :: normalizeNewlines c) =
      (commented_header m).flatten ++ '\n' :: normalizeNewlines c := by
    rw [normalize_append (header_no_cr hm), normalize_cons_ne (by decide), normalize_idem]
  have h2 : (commented_header m).flatten ++ '\n' :: normalizeNewlines c =
      (commented_header m ++ [['\n']]).flatten ++ normalizeNewlines c := by
    rw [List.flatten_append]
    simp
  rw [readlines, h1, h2,
    splitLines_flatten_append (header_lines_term (marker_no_nl hm)) (normalizeNewlines c)]
  simp [readlines]

theorem already_inject {ext m c : List Char} (hm : getMarker ext = some m) :
    alreadyLicensedB (injectExt ext c) = true := by
  cases hal : alreadyLicensedB c with
  | true => rw [inject_skip hm hal]; exact hal
  | false =>
    rw [alreadyLicensedB, readlines_inject hm hal]
    rw [List.take_append_eq_append_take,
      List.take_of_length_le (by rw [commented_header_length]; omega)]
    rw [List.any_append]
    have hhead : (commented_header m).any (fun l => containsSub l licenseSub) = true := by
      rcases getMarker_range hm with rfl | rfl <;> decide
    rw [hhead]
    rfl

/-! ### Claim theorems -/

/-- Claim C1: injecting a header is idempotent. For every supported
extension, a second invocation on the result of the first returns it
unchanged; the second invocation takes the already-licensed branch
(the substring lies within the first 15 lines — it is line 3, index 2,
of the rendered header when the first invocation wrote), so at the
file-system level the second invocation performs no write. -/
theorem inject_idem : ∀ ext m c : List Char, getMarker ext = some m →
    injectExt ext (injectExt ext c) = injectExt ext c
    ∧ alreadyLicensedB (injectExt ext c) = true
    ∧ (alreadyLicensedB c = false →
        (readlines (injectExt ext c))[2]? =
          some (renderLine m
            "Licensed under the Apache License, Version 2.0 (the \"License\");".data)
        ∧ containsSub
            (renderLine m
              "Licensed under the Apache License, Version 2.0 (the \"License\");".data)
            licenseSub = true)
    ∧ (∀ (fs : FS) (p : List Char), pathExt p = ext →
        lookupFS fs p = some (injectExt ext c) → add_header fs p = Except.ok fs) := by
  intro ext m c hm
  refine ⟨inject_skip hm (already_inject hm), already_inject hm, ?_, ?_⟩
  · intro hal
    constructor
    · rw [readlines_inject hm hal,
        List.getElem?_append_left (by rw [commented_header_length]; omega)]
      rcases getMarker_range hm with rfl | rfl <;> rfl
    · rcases getMarker_range hm with rfl | rfl <;> decide
  · intro fs p hpe hlk
    simp [add_header, hpe, hm, marker_ne_nil hm, hlk, already_inject hm]

/-- Witness for C1: a concrete `.py` file. -/
theorem inject_idem_w :
    getMarker ".py".data = some "#".data
    ∧ injectExt ".py".data (injectExt ".py".data "hello\n".data) =
        injectExt ".py".data "hello\n".data
    ∧ alreadyLicensedB (injectExt ".py".data "hello\n".data) = true :=
  ⟨by decide, (inject_idem ".py".data "#".data "hello\n".data (by decide)).1,
   (inject_idem ".py".data "#".data "hello\n".data (by decide)).2.1⟩

/-- Counterexample to C2 as stated: the read does not preserve line
terminators. For a `.py` file with content `"x\r\n"`, the content after
the header block and the blank line is `"x\n"`, not the original bytes. -/
theorem content_cex :
    (injectExt ".py".data "x\r\n".data).drop
        ((commented_header "#".data).flatten.length + 1) ≠ "x\r\n".data
    ∧ (injectExt ".py".data "x\r\n".data).drop
        ((commented_header "#".data).flatten.length + 1) = "x\n".data := by
  decide

/-- Claim C2 (amended): for a file that receives a header, the content
following the header block and the single blank line is the original
content with the line terminators `"\r\n"` and `"\r"` translated to
`"\n"` by the text-mode read; it is byte-for-byte identical to the
original whenever the original contains no carriage return. -/
theorem content_tail : ∀ ext m c : List Char, getMarker ext = some m →
    alreadyLicensedB c = false →
    (injectExt ext c).drop ((commented_header m).flatten.length + 1) =
      normalizeNewlines c
    ∧ ('\r' ∉ c →
        (injectExt ext c).drop ((commented_header m).flatten.length + 1) = c) := by
  intro ext m c hm hal
  have h : (injectExt ext c).drop ((commented_header m).flatten.length + 1) =
      normalizeNewlines c := by
    rw [inject_write hm hal]
    rw [show (commented_header m).flatten ++ '\n' :: normalizeNewlines c =
      ((commented_header m).flatten ++ ['\n']) ++ normalizeNewlines c by simp]
    rw [show (commented_header m).flatten.length + 1 =
      ((commented_header m).flatten ++ ['\n']).length by simp]
    exact List.drop_left _ _
  exact ⟨h, fun hcr => by rw [h, normalize_id hcr]⟩

/-- Witness for C2 (amended): a concrete LF-only `.py` file. -/
theorem content_tail_w :
    getMarker ".py".data = some "#".data
    ∧ alreadyLicensedB "hello\n".data = false
    ∧ (injectExt ".py".data "hello\n".data).drop
        ((commented_header "#".data).flatten.length + 1) = "hello\n".data :=
  ⟨by decide, by decide,
   (content_tail ".py".data "#".data "hello\n".data (by decide) (by decide)).2
     (by decide)⟩

/-- Counterexample to C4 as stated: for a `.go` file with content
`"y\r"`, the written file is the header, the blank line and `"y\n"` —
not the prior content `"y\r"`. -/
theorem shape_cex :
    injectExt ".go".data "y\r".data ≠
      (commented_header "//".data).flatten ++ '\n' :: "y\r".data
    ∧ injectExt ".go".data "y\r".data =
      (commented_header "//".data).flatten ++ '\n' :: "y\n".data := by
  decide

/-- Claim C4 (amended): whenever a header is injected, the written file
is exactly the 13 rendered comment lines, one blank line, and the prior
content as read (terminators `"\r\n"`/`"\r"` normalized to `"\n"`);
the prior content appears byte-for-byte whenever it contains no
carriage return. The line decomposition of the result is the 13 header
lines, the blank line, then the original lines. -/
theorem inject_shape : ∀ ext m c : List Char, getMarker ext = some m →
    alreadyLicensedB c = false →
    injectExt ext c = (commented_header m).flatten ++ '\n' :: normalizeNewlines c
    ∧ (commented_header m).length = 13
    ∧ readlines (injectExt ext c) = commented_header m ++ ['\n'] :: readlines c
    ∧ ('\r' ∉ c →
        injectExt ext c = (commented_header m).flatten ++ '\n' :: c) := by
  intro ext m c hm hal
  exact ⟨inject_write hm hal, commented_header_length m, readlines_inject hm hal,
    fun hcr => by rw [inject_write hm hal, normalize_id hcr]⟩

/-- Witness for C4 (amended): a concrete LF-only `.go` file. -/
theorem inject_shape_w :
    getMarker ".go".data = some "//".data
    ∧ alreadyLicensedB "y\n".data = false
    ∧ injectExt ".go".data "y\n".data =
        (commented_header "//".data).flatten ++ '\n' :: "y\n".data :=
  ⟨by decide, by decide,
   (inject_shape ".go".data "//".data "y\n".data (by decide) (by decide)).2.2.2
     (by decide)⟩

/-- Claim C3: the supported-extension table is exactly the eight listed
entries with their markers, matched case-sensitively and with the
leading dot; any extension outside the table leaves the content
unchanged. -/
theorem dispatch :
    getMarker ".sh".data = some "#".data
    ∧ getMarker ".rs".data = some "//".data
    ∧ getMarker ".py".data = some "#".data
    ∧ getMarker ".go".data = some "//".data
    ∧ getMarker ".js".data = some "//".data
    ∧ getMarker ".jsx".data = some "//".data
    ∧ getMarker ".ts".data = some "//".data
    ∧ getMarker ".tsx".data = some "//".data
    ∧ getMarker ".PY".data = none
    ∧ getMarker "py".data = none
    ∧ getMarker [] = none
    ∧ (∀ ext c : List Char, getMarker ext = none → injectExt ext c = c) := by
  refine ⟨by decide, by decide, by decide, by decide, by decide, by decide, by decide,
    by decide, by decide, by decide, by decide, ?_⟩
  intro ext c h
  simp [injectExt, h]

/-- Witness for C3: an unsupported `.txt` extension is left unchanged. -/
theorem dispatch_w :
    getMarker ".txt".data = none
    ∧ injectExt ".txt".data "abc".data = "abc".data :=
  ⟨by decide, dispatch.2.2.2.2.2.2.2.2.2.2.2 ".txt".data "abc".data (by decide)⟩

/-- Claim C5: each License Notice line renders as marker, one space,
and the line with trailing whitespace trimmed, terminated by a single
newline; an empty notice line renders as the bare marker and newline. -/
theorem render_spec : ∀ ext m : List Char, getMarker ext = some m →
    ∀ line ∈ LICENSE_LINES,
      renderLine m line =
        if line = [] then m ++ ['\n'] else m ++ ' ' :: rstrip line ++ ['\n'] := by
  intro ext m hm line hline
  rcases getMarker_range hm with rfl | rfl <;> fin_cases hline <;> decide

/-- Witness for C5: a blank notice line under `#` and a text line
under `//`. -/
theorem render_spec_w :
    renderLine "#".data "".data = "#".data ++ ['\n']
    ∧ renderLine "//".data "You may obtain a copy of the License at".data =
        "//".data ++ ' ' ::
          rstrip "You may obtain a copy of the License at".data ++ ['\n'] :=
  ⟨(render_spec ".py".data "#".data (by decide) "".data (by decide)).trans
     (by decide),
   (render_spec ".go".data "//".data (by decide)
       "You may obtain a copy of the License at".data (by decide)).trans
     (by decide)⟩

/-- Claim C6: for a supported extension, when the substring occurs in
one of the first 15 lines the file is returned unchanged (and at the
file-system level nothing is written and no error is raised); when it
does not occur there — even if it occurs later — the header is
injected. -/
theorem skip_licensed : ∀ ext m c : List Char, getMarker ext = some m →
    (alreadyLicensedB c = true → injectExt ext c = c)
    ∧ (alreadyLicensedB c = false →
        injectExt ext c = (commented_header m).flatten ++ '\n' :: normalizeNewlines c)
    ∧ (∀ (fs : FS) (p : List Char), pathExt p = ext → lookupFS fs p = some c →
        alreadyLicensedB c = true → add_header fs p = Except.ok fs) := by
  intro ext m c hm
  refine ⟨fun hal => inject_skip hm hal, fun hal => inject_write hm hal, ?_⟩
  intro fs p hpe hlk hal
  simp [add_header, hpe, hm, marker_ne_nil hm, hlk, hal]

/-- Witness for C6: Scenario B — a `.go` file already licensed within
its first 15 lines is untouched; and a `.py` file whose only occurrence
of the substring is on line 16 still receives the header. -/
theorem skip_licensed_w :
    add_header
        [("b.go".data, "// Licensed under the Apache License, Version 2.0\n".data)]
        "b.go".data =
      Except.ok
        [("b.go".data, "// Licensed under the Apache License, Version 2.0\n".data)]
    ∧ alreadyLicensedB
        "a\na\na\na\na\na\na\na\na\na\na\na\na\na\na\nLicensed under the Apache License\n".data
        = false
    ∧ injectExt ".py".data
        "a\na\na\na\na\na\na\na\na\na\na\na\na\na\na\nLicensed under the Apache License\n".data
      = (commented_header "#".data).flatten ++ '\n' :: normalizeNewlines
          "a\na\na\na\na\na\na\na\na\na\na\na\na\na\na\nLicensed under the Apache License\n".data :=
  ⟨(skip_licensed ".go".data "//".data
      "// Licensed under the Apache License, Version 2.0\n".data (by decide)).2.2
      [("b.go".data, "// Licensed under the Apache License, Version 2.0\n".data)]
      "b.go".data (by decide) (by decide) (by decide),
   by decide,
   (skip_licensed ".py".data "#".data
      "a\na\na\na\na\na\na\na\na\na\na\na\na\na\na\nLicensed under the Apache License\n".data
      (by decide)).2.1 (by decide)⟩

/-- Claim C9: a supported empty file receives exactly the 13 rendered
header lines and the blank line; the already-licensed check over the
empty content never matches. -/
theorem inject_empty : ∀ ext m : List Char, getMarker ext = some m →
    alreadyLicensedB [] = false
    ∧ injectExt ext [] = (commented_header m).flatten ++ ['\n'] := by
  intro ext m hm
  refine ⟨by decide, ?_⟩
  have h := @inject_write ext m [] hm (by decide)
  simpa [normalizeNewlines] using h

/-- Witness for C9: the empty `.py` file. -/
theorem inject_empty_w :
    getMarker ".py".data = some "#".data
    ∧ injectExt ".py".data [] = (commented_header "#".data).flatten ++ ['\n'] :=
  ⟨by decide, (inject_empty ".py".data "#".data (by decide)).2⟩

/-! ### The extension-extraction rule -/

theorem rfindDotAux_spec (l : List Char) :
    ∀ (k : Nat) (acc : Option Nat) (i : Nat),
      rfindDotAux l k acc = some i →
      (∃ j, i = k + j ∧ l[j]? = some '.' ∧ ∀ j2, j < j2 → l[j2]? ≠ some '.')
      ∨ (acc = some i ∧ ∀ j : Nat, l[j]? ≠ some '.') := by
  induction l with
  | nil =>
    intro k acc i h
    exact Or.inr ⟨h, fun j => by simp⟩
  | cons c rest ih =>
    intro k acc i h
    simp only [rfindDotAux] at h
    rcases ih (k + 1) (if c = '.' then some k else acc) i h with
      ⟨j, hij, hget, hafter⟩ | ⟨hacc, hnone⟩
    · refine Or.inl ⟨j + 1, by omega, by simpa using hget, ?_⟩
      intro j2 hj2
      cases j2 with
      | zero => omega
      | succ j2' =>
        rw [List.getElem?_cons_succ]
        exact hafter j2' (by omega)
    · by_cases hc : c = '.'
      · subst hc
        rw [if_pos rfl] at hacc
        have hik : i = k := by simpa using hacc.symm
        refine Or.inl ⟨0, by omega, by simp, ?_⟩
        intro j2 hj2
        cases j2 with
        | zero => omega
        | succ j2' =>
          rw [List.getElem?_cons_succ]
          exact hnone j2'
      · rw [if_neg hc] at hacc
        refine Or.inr ⟨hacc, ?_⟩
        intro j
        cases j with
        | zero =>
          rw [List.getElem?_cons_zero]
          exact fun hh => hc (Option.some.inj hh)
        | succ j' =>
          rw [List.getElem?_cons_succ]
          exact hnone j'

theorem rfindDot_spec {name : List Char} {i : Nat} (h : rfindDot name = some i) :
    name[i]? = some '.' ∧ ∀ j, i < j → name[j]? ≠ some '.' := by
  rcases rfindDotAux_spec name 0 none i h with ⟨j, hij, hget, hafter⟩ | ⟨hacc, _⟩
  · have hji : j = i := by omega
    subst hji
    exact ⟨hget, hafter⟩
  · exact absurd hacc (by simp)

theorem suffix_eq {name : List Char} {i : Nat} (h : rfindDot name = some i) :
    suffix name = if 0 < i ∧ i + 1 < name.length then name.drop i else [] := by
  unfold suffix
  rw [h]

theorem suffix_none {name : List Char} (h : rfindDot name = none) :
    suffix name = [] := by
  unfold suffix
  rw [h]

theorem specExt_eq {name : List Char} {i : Nat} (h : rfindDot name = some i) :
    specExt name = name.drop i := by
  unfold specExt
  rw [h]

/-- Counterexample to C7 as stated: for a file named `.py`, the spec's
rule ("the substring after the final `.`, including the dot") yields
`".py"`, a supported extension with marker `#`, but the code's pathlib
suffix of a dotfile is empty, so the file is skipped. -/
theorem ext_rule_cex :
    specExt ".py".data = ".py".data
    ∧ getMarker (specExt ".py".data) = some "#".data
    ∧ pathExt ".py".data = []
    ∧ getMarker (pathExt ".py".data) = none
    ∧ injectExt (pathExt ".py".data) [] = []
    ∧ injectExt (specExt ".py".data) [] ≠ [] := by
  decide

/-- Claim C7 (amended): the extension looked up is the substring after
the final `.` of the filename (including the dot) whenever that dot is
neither the first nor the last character; if the filename has no dot,
ends in its final dot, or its only dot is leading (a dotfile such as
`.py`), the looked-up extension is empty, so the file is skipped.
Multi-dot names use the part after the last dot. -/
theorem ext_rule :
    (∀ (name : List Char) (i : Nat), rfindDot name = some i → 0 < i →
      i + 1 < name.length →
      suffix name = specExt name
      ∧ suffix name = name.drop i
      ∧ (suffix name).head? = some '.'
      ∧ ∀ j, i < j → name[j]? ≠ some '.')
    ∧ (∀ (name : List Char) (i : Nat), rfindDot name = some i →
        i = 0 ∨ i + 1 = name.length → suffix name = [])
    ∧ (∀ name : List Char, rfindDot name = none → suffix name = [])
    ∧ suffix "a.b.py".data = ".py".data
    ∧ suffix ".py".data = []
    ∧ suffix "a.".data = []
    ∧ (∀ c : List Char, injectExt (suffix ".py".data) c = c
        ∧ injectExt (suffix "a.".data) c = c) := by
  refine ⟨?_, ?_, ?_, by decide, by decide, by decide, ?_⟩
  · intro name i h h0 h1
    obtain ⟨hget, hafter⟩ := rfindDot_spec h
    have hs : suffix name = name.drop i := by
      rw [suffix_eq h, if_pos ⟨h0, h1⟩]
    have hsp : specExt name = name.drop i := specExt_eq h
    refine ⟨hs.trans hsp.symm, hs, ?_, hafter⟩
    rw [hs, List.head?_drop]
    exact hget
  · intro name i h hi
    rw [suffix_eq h, if_neg]
    rintro ⟨h0, h1⟩
    rcases hi with rfl | hlen
    · omega
    · omega
  · intro name h
    exact suffix_none h
  · intro c
    constructor
    · rw [show suffix ".py".data = [] from by decide]
      simp [injectExt, show getMarker [] = none from by decide]
    · rw [show suffix "a.".data = [] from by decide]
      simp [injectExt, show getMarker [] = none from by decide]

/-- Witness for C7 (amended): the filename `m.py`, whose final dot is
interior, and the dotfile `.py`. -/
theorem ext_rule_w :
    rfindDot "m.py".data = some 1
    ∧ suffix "m.py".data = specExt "m.py".data
    ∧ suffix "m.py".data = "m.py".data.drop 1
    ∧ suffix ".py".data = [] :=
  ⟨by decide,
   (ext_rule.1 "m.py".data 1 (by decide) (by decide) (by decide)).1,
   (ext_rule.1 "m.py".data 1 (by decide) (by decide) (by decide)).2.1,
   ext_rule.2.2.2.2.1⟩

/-! ### The entry point and the error policy -/

theorem lookupFS_isSome_any (fs : FS) (q : List Char) :
    (lookupFS fs q).isSome = fs.any (fun kv => kv.1 = q) := by
  induction fs with
  | nil => rfl
  | cons kv rest ih =>
    obtain ⟨k, w⟩ := kv
    by_cases hk : k = q <;> simp [lookupFS, hk, ih]

theorem fsWrite_any (fs : FS) (p v q : List Char) :
    (fsWrite fs p v).any (fun kv => kv.1 = q) = fs.any (fun kv => kv.1 = q) := by
  induction fs with
  | nil => rfl
  | cons kv rest ih =>
    obtain ⟨k, w⟩ := kv
    have hcons : fsWrite ((k, w) :: rest) p v =
        (if k = p then (p, v) else (k, w)) :: fsWrite rest p v := by
      simp [fsWrite]
    rw [hcons, List.any_cons, List.any_cons, ih]
    by_cases hk : k = p
    · subst hk
      rw [if_pos rfl]
    · rw [if_neg hk]

theorem lookupFS_fsWrite_isSome (fs : FS) (p v q : List Char) :
    (lookupFS (fsWrite fs p v) q).isSome = (lookupFS fs q).isSome := by
  rw [lookupFS_isSome_any, lookupFS_isSome_any, fsWrite_any]

theorem add_header_err {fs : FS} {p : List Char} (h : failsB fs p = true) :
    add_header fs p = Except.error () := by
  simp only [failsB, Bool.and_eq_true, Option.isSome_iff_exists,
    Option.isNone_iff_eq_none] at h
  obtain ⟨⟨m, hm⟩, hlk⟩ := h
  simp [add_header, hm, marker_ne_nil hm, hlk]

theorem add_header_ok {fs : FS} {p : List Char} (h : failsB fs p = false) :
    ∃ fs2, add_header fs p = Except.ok fs2
      ∧ ∀ q, (lookupFS fs2 q).isSome = (lookupFS fs q).isSome := by
  cases hm : getMarker (pathExt p) with
  | none => exact ⟨fs, by simp [add_header, hm], fun q => rfl⟩
  | some m =>
    cases hlk : lookupFS fs p with
    | none =>
      exfalso
      simp [failsB, hm, hlk] at h
    | some c =>
      cases hal : alreadyLicensedB c with
      | true =>
        exact ⟨fs, by simp [add_header, hm, marker_ne_nil hm, hlk, hal], fun q => rfl⟩
      | false =>
        refine ⟨fsWrite fs p (((commented_header m) ++ [['\n']] ++ readlines c).flatten),
          by simp [add_header, hm, marker_ne_nil hm, hlk, hal], ?_⟩
        intro q
        exact lookupFS_fsWrite_isSome fs p _ q

theorem failsB_pres {fs fs2 : FS}
    (hpres : ∀ q, (lookupFS fs2 q).isSome = (lookupFS fs q).isSome)
    (a : List Char) : failsB fs2 a = failsB fs a := by
  have h := hpres a
  unfold failsB
  cases h2 : lookupFS fs2 a <;> cases h3 : lookupFS fs a <;>
    rw [h2, h3] at h <;> simp_all

theorem mainLoop_ok : ∀ (args : List (List Char)) (fs : FS),
    (∀ a ∈ args, failsB fs a = false) →
    (mainLoop fs args).2.1 = true ∧ (mainLoop fs args).2.2 = [] := by
  intro args
  induction args with
  | nil => intro fs _; exact ⟨rfl, rfl⟩
  | cons a rest ih =>
    intro fs h
    obtain ⟨fs2, hok, hpres⟩ := add_header_ok (h a (List.mem_cons_self a rest))
    have hstep : mainLoop fs (a :: rest) = mainLoop fs2 rest := by
      simp [mainLoop, hok]
    rw [hstep]
    exact ih fs2
      (fun b hb => (failsB_pres hpres b).trans (h b (List.mem_cons_of_mem a hb)))

theorem mainLoop_fail : ∀ (pre : List (List Char)) (fs : FS) (bad post : _),
    (∀ a ∈ pre, failsB fs a = false) → failsB fs bad = true →
    mainLoop fs (pre ++ bad :: post) = ((mainLoop fs pre).1, false, post) := by
  intro pre
  induction pre with
  | nil =>
    intro fs bad post _ hbad
    simp [mainLoop, add_header_err hbad]
  | cons a pre' ih =>
    intro fs bad post h hbad
    obtain ⟨fs2, hok, hpres⟩ := add_header_ok (h a (List.mem_cons_self a pre'))
    have h1 : mainLoop fs ((a :: pre') ++ bad :: post) =
        mainLoop fs2 (pre' ++ bad :: post) := by
      simp [mainLoop, hok]
    have h2 : mainLoop fs (a :: pre') = mainLoop fs2 pre' := by
      simp [mainLoop, hok]
    rw [h1, h2]
    exact ih fs2 bad post
      (fun b hb => (failsB_pres hpres b).trans (h b (List.mem_cons_of_mem a hb)))
      ((failsB_pres hpres bad).trans hbad)

/-- Claim C8: the entry point applies `add_header` to its arguments in
the order given. When no argument fails (a failing argument is one with
a supported extension naming a missing file), the run completes with
exit status 0 having consumed every argument. When some argument fails,
the run terminates with non-zero status at the first failing argument:
the file system is exactly the one produced by the preceding arguments,
and the arguments after the failing one are left unprocessed. -/
theorem main_order : ∀ (fs : FS) (args : List (List Char)),
    ((∀ a ∈ args, failsB fs a = false) →
      (mainLoop fs args).2.1 = true ∧ (mainLoop fs args).2.2 = [])
    ∧ (∀ pre bad post, args = pre ++ bad :: post →
        (∀ a ∈ pre, failsB fs a = false) → failsB fs bad = true →
        mainLoop fs args = ((mainLoop fs pre).1, false, post)) := by
  intro fs args
  refine ⟨mainLoop_ok args fs, ?_⟩
  rintro pre bad post rfl hpre hbad
  exact mainLoop_fail pre fs bad post hpre hbad

/-- Witness for C8: a run over an existing `.py` file and a skipped
`.md` file exits 0; a run whose first argument names a missing `.py`
file fails at once, leaving the second argument unprocessed. -/
theorem main_order_w :
    (mainLoop [("a.py".data, [])] ["a.py".data, "b.md".data]).2.1 = true
    ∧ (mainLoop [("a.py".data, [])] ["a.py".data, "b.md".data]).2.2 = []
    ∧ mainLoop [("a.py".data, [])] ["nope.py".data, "x.go".data] =
        ((mainLoop [("a.py".data, [])] []).1, false, ["x.go".data]) :=
  ⟨((main_order [("a.py".data, [])] ["a.py".data, "b.md".data]).1 (by decide)).1,
   ((main_order [("a.py".data, [])] ["a.py".data, "b.md".data]).1 (by decide)).2,
   (main_order [("a.py".data, [])] ["nope.py".data, "x.go".data]).2 []
     "nope.py".data ["x.go".data] rfl (by decide) (by decide)⟩

/-- Claim C10: the unsupported-extension decision precedes any file
access. With an unsupported extension `add_header` succeeds and leaves
every file system unchanged — in particular when the file does not
exist — while a supported extension naming a missing file raises. At
the process level, a run on a single nonexistent unsupported path exits
0 and a run on a single nonexistent supported path exits non-zero. -/
theorem unsupported_no_open : ∀ (fs : FS) (p : List Char),
    (getMarker (pathExt p) = none → add_header fs p = Except.ok fs)
    ∧ (∀ m, getMarker (pathExt p) = some m → lookupFS fs p = none →
        add_header fs p = Except.error ())
    ∧ (lookupFS fs p = none → getMarker (pathExt p) = none →
        mainLoop fs [p] = (fs, true, []))
    ∧ (∀ m, lookupFS fs p = none → getMarker (pathExt p) = some m →
        mainLoop fs [p] = (fs, false, [])) := by
  intro fs p
  refine ⟨?_, ?_, ?_, ?_⟩
  · intro hm
    simp [add_header, hm]
  · intro m hm hlk
    simp [add_header, hm, marker_ne_nil hm, hlk]
  · intro _ hm
    simp [mainLoop, add_header, hm]
  · intro m hlk hm
    simp [mainLoop, add_header, hm, marker_ne_nil hm, hlk]

/-- Witness for C10: on an empty file system, `README.md` is skipped
silently and `a.py` aborts the run. -/
theorem unsupported_no_open_w :
    add_header [] "README.md".data = Except.ok []
    ∧ add_header [] "a.py".data = Except.error ()
    ∧ mainLoop [] ["README.md".data] = ([], true, [])
    ∧ mainLoop [] ["a.py".data] = ([], false, []) :=
  ⟨(unsupported_no_open [] "README.md".data).1 (by decide),
   (unsupported_no_open [] "a.py".data).2.1 "#".data (by decide) (by decide),
   (unsupported_no_open [] "README.md".data).2.2.1 (by decide) (by decide),
   (unsupported_no_open [] "a.py".data).2.2.2 "#".data (by decide) (by decide)⟩

end AddLicense
